import Mathlib

/-!
Verification of the MuSig2 multi-signature module (`src/zkp/musig.rs`).

The Rust module is a safe wrapper around the C MuSig2 implementation: the
protocol arithmetic (key aggregation, nonce handling, session derivation,
partial signing, signature aggregation, adaptor conversion) is performed by
the foreign functions, and the wrapper contributes argument marshalling,
length checks, error mapping and the `unreachable!` panics.  The protocol
layer itself is therefore modelled from the specification:

* the signature curve group is cyclic of order `N`, so a point is represented
  by its discrete logarithm with respect to the generator `G` — an element of
  `ZMod N`; the generator is `1` and the point at infinity is `0`;
* the y-parity of a point is modelled by a canonical-half convention:
  a point has "even y" when the representative of its discrete logarithm lies
  in the lower half of `[0, N)`; negation then flips parity for every
  non-identity point exactly as on the curve;
* the tagged-hash primitive is an external collaborator, so each
  domain-separated hash is a field of a `HashModel` parameter; theorems
  quantify over the model;
* fallible operations return `Except`, and a Rust `unreachable!` panic is the
  `RustPanic` error of a constructor's result.
-/

/-- A 32-byte buffer (session identifiers, extra randomness, messages). -/
abbrev Bytes32 : Type := Fin 32 → Fin 256

/-- The 32-byte message that is signed. -/
abbrev Message : Type := Bytes32

/-- A scalar modulo the curve order `N`. -/
abbrev Scalar (N : ℕ) : Type := ZMod N

/-- A curve point, represented by its discrete logarithm with respect to the
generator: the generator is `1`, the point at infinity is `0`. -/
abbrev Point (N : ℕ) : Type := ZMod N

/-- Parity model: a point has an even y-coordinate when the canonical
representative of its discrete logarithm lies in the lower half of `[0, N)`.
For odd `N` this gives the curve's defining property: exactly one of a
non-identity point and its negation is even. -/
def evenY (N : ℕ) (P : Point N) : Bool := decide (2 * P.val < N)

/-- The even-y lift of a point's x-coordinate: the point itself when its y is
even, its negation otherwise.  An x-only public key is stored as this
canonical point. -/
def xonly (N : ℕ) (P : Point N) : Point N := if evenY N P then P else -P

/-- The external tagged-hash collaborator: one field per published domain
separation tag used by the protocol. -/
structure HashModel (N : ℕ) where
  /-- Commitment `L` over the full ordered key list ("KeyAgg list"). -/
  keyAggList : List (Point N) → Scalar N
  /-- Per-key aggregation coefficient hash ("KeyAgg coefficient"),
  applied to `L` and the key. -/
  keyAggCoefHash : Scalar N → Point N → Scalar N
  /-- First secret-nonce derivation ("MuSigNonce"): mixes the session id and
  the optional secret key, message, aggregate key and extra randomness. -/
  nonceHash1 : Bytes32 → Option (Scalar N) → Option Message → Option (Point N) →
    Option Bytes32 → Scalar N
  /-- Second, independent secret-nonce derivation. -/
  nonceHash2 : Bytes32 → Option (Scalar N) → Option Message → Option (Point N) →
    Option Bytes32 → Scalar N
  /-- Binding coefficient hash ("MuSigNoncecoef") over the aggregate nonce,
  the aggregate public key and the message. -/
  nonceCoefHash : Point N → Point N → Point N → Message → Scalar N
  /-- Schnorr challenge hash ("BIP0340/challenge") over the final nonce
  x-coordinate, the aggregate public key and the message. -/
  challengeHash : Point N → Point N → Message → Scalar N

/-- Error of the tweak operations (`MusigTweakErr` in the source). -/
inductive MusigTweakErr where
  | InvalidTweak
deriving DecidableEq, Repr

/-- Error of nonce generation (`MusigNonceGenError` in the source). -/
inductive MusigNonceGenError where
  | ZeroSession
deriving DecidableEq, Repr

/-- Error of partial signing (`MusigSignError` in the source). -/
inductive MusigSignError where
  | NonceReuse
deriving DecidableEq, Repr

/-- Wire-format parsing errors (`ParseError` in the source). -/
inductive ParseError where
  | ArgLenMismatch (expected got : ℕ)
  | MalformedArg
deriving DecidableEq, Repr

/-- A Rust `unreachable!` panic: the constructors reaching this branch abort
instead of returning an error value. -/
inductive RustPanic where
  | unreachableReached
deriving DecidableEq, Repr

/-- The key-aggregation cache: the aggregate point, the list commitment `L`,
the designated key of coefficient one, the accumulated x-only-tweak parity,
the accumulated tweak, and the snapshot of the aggregate x-only key taken at
construction (the second component of the Rust `MusigKeyAggCache` pair, which
`agg_pk` returns). -/
structure MusigKeyAggCache (N : ℕ) where
  q : Point N
  lhash : Scalar N
  secondPk : Point N
  gacc : Bool
  tacc : Scalar N
  aggPkSnapshot : Point N
deriving DecidableEq, Repr

/-- A secret nonce: two independently derived scalars, zeroed on use. -/
structure MusigSecNonce (N : ℕ) where
  k1 : Scalar N
  k2 : Scalar N
deriving DecidableEq, Repr

/-- A public nonce: the two points corresponding to a secret nonce. -/
structure MusigPubNonce (N : ℕ) where
  r1 : Point N
  r2 : Point N
deriving DecidableEq, Repr

/-- The aggregate nonce: componentwise sums of the signers' public nonces. -/
structure MusigAggNonce (N : ℕ) where
  r1 : Point N
  r2 : Point N
deriving DecidableEq, Repr

/-- One signer's partial signature: a single scalar. -/
structure MusigPartialSignature (N : ℕ) where
  s : Scalar N
deriving DecidableEq, Repr

/-- The immutable signing session: binding coefficient, x-only final nonce,
its parity, the Schnorr challenge, and the key-parity correction copied from
the cache. -/
structure MusigSession (N : ℕ) where
  b : Scalar N
  finNonceX : Point N
  finNonceParity : Bool
  e : Scalar N
  keyParity : Bool
deriving DecidableEq, Repr

/-- A 64-byte Schnorr signature: final nonce x-coordinate and scalar half. -/
structure SchnorrSignature (N : ℕ) where
  r : Point N
  s : Scalar N
deriving DecidableEq, Repr

/-- The designated key of aggregation coefficient one: the second-listed key
distinct from the first (the sentinel `0` when all keys coincide, in which
case no valid key receives coefficient one). -/
def secondKey (N : ℕ) (keys : List (Point N)) : Point N :=
  match keys with
  | [] => 0
  | k :: rest => (rest.find? (fun x => decide (x ≠ k))).getD 0

/-- The aggregation coefficient of one key: `1` for the designated second key,
the "KeyAgg coefficient" hash of `L` and the key otherwise. -/
def keyAggCoef (N : ℕ) (H : HashModel N) (lhash : Scalar N) (secondPk : Point N)
    (P : Point N) : Scalar N :=
  if P = secondPk then 1 else H.keyAggCoefHash lhash P

/-- The aggregate point of an ordered key list: the coefficient-weighted sum
of the even-y lifts of the input x-only keys. -/
def aggregatePoint (N : ℕ) (H : HashModel N) (pubkeys : List (Point N)) : Point N :=
  (pubkeys.map (fun P =>
    keyAggCoef N H (H.keyAggList pubkeys) (secondKey N pubkeys) P * P)).sum

/-- Key aggregation (`MusigKeyAggCache::new`).  The foreign call fails — and
the wrapper panics via `unreachable!` — when the key list is empty or the
aggregate point is the point at infinity; otherwise the cache is built with a
fresh tweak accumulator and the x-only aggregate key snapshot. -/
def MusigKeyAggCache.new (N : ℕ) (H : HashModel N) (pubkeys : List (Point N)) :
    Except RustPanic (MusigKeyAggCache N) :=
  if pubkeys = [] then .error .unreachableReached
  else
    let L := H.keyAggList pubkeys
    let sk2 := secondKey N pubkeys
    let q := aggregatePoint N H pubkeys
    if q = 0 then .error .unreachableReached
    else .ok ⟨q, L, sk2, false, 0, xonly N q⟩

/-- The stored aggregate x-only public key (`MusigKeyAggCache::agg_pk`):
the snapshot taken at construction. -/
def MusigKeyAggCache.agg_pk (N : ℕ) (cache : MusigKeyAggCache N) : Point N :=
  cache.aggPkSnapshot

/-- Plain EC tweaking (`MusigKeyAggCache::pubkey_ec_tweak_add`): adds
`tweak·G` to the aggregate point.  Fails with `InvalidTweak`, leaving the
cache unchanged, exactly when the result is the point at infinity; otherwise
returns the tweaked full public key and the updated cache. -/
def MusigKeyAggCache.pubkey_ec_tweak_add (N : ℕ) (cache : MusigKeyAggCache N)
    (tweak : Scalar N) :
    Except MusigTweakErr (Point N) × MusigKeyAggCache N :=
  let qTweaked := cache.q + tweak
  if qTweaked = 0 then (.error .InvalidTweak, cache)
  else (.ok qTweaked, { cache with q := qTweaked, tacc := cache.tacc + tweak })

/-- X-only tweaking (`MusigKeyAggCache::pubkey_xonly_tweak_add`): re-derives
the x-only form of the aggregate point (recording its parity) before adding
`tweak·G`, matching taproot derivation.  Fails with `InvalidTweak`, leaving
the cache unchanged, exactly when the result is the point at infinity. -/
def MusigKeyAggCache.pubkey_xonly_tweak_add (N : ℕ) (cache : MusigKeyAggCache N)
    (tweak : Scalar N) :
    Except MusigTweakErr (Point N) × MusigKeyAggCache N :=
  let g := evenY N cache.q
  let qTweaked := (if g then cache.q else -cache.q) + tweak
  if qTweaked = 0 then (.error .InvalidTweak, cache)
  else
    (.ok (xonly N qTweaked),
      { cache with
          q := qTweaked
          gacc := xor cache.gacc (!g)
          tacc := (if g then cache.tacc else -cache.tacc) + tweak })

/-- The all-zero 32-byte session identifier, the one value nonce generation
rejects. -/
def zeroSessionId : Bytes32 := fun _ => 0

/-- Nonce generation (`new_musig_nonce_pair`): fails with `ZeroSession`
exactly when the session identifier is all zeros; otherwise derives the two
secret scalars through the two independent tagged-hash derivations and
returns them with the corresponding public nonce points. -/
def new_musig_nonce_pair (N : ℕ) (H : HashModel N) (session_id : Bytes32)
    (key_agg_cache : Option (MusigKeyAggCache N)) (sec_key : Option (Scalar N))
    (msg : Option Message) (extra_rand : Option Bytes32) :
    Except MusigNonceGenError (MusigSecNonce N × MusigPubNonce N) :=
  if session_id = zeroSessionId then .error .ZeroSession
  else
    let aggpk := key_agg_cache.map (fun c => c.aggPkSnapshot)
    let k1 := H.nonceHash1 session_id sec_key msg aggpk extra_rand
    let k2 := H.nonceHash2 session_id sec_key msg aggpk extra_rand
    .ok (⟨k1, k2⟩, ⟨k1, k2⟩)

/-- Nonce generation through a key-aggregation cache
(`MusigKeyAggCache::nonce_gen`): all misuse-resistance inputs present. -/
def MusigKeyAggCache.nonce_gen (N : ℕ) (H : HashModel N)
    (cache : MusigKeyAggCache N) (session_id : Bytes32) (sec_key : Scalar N)
    (msg : Message) (extra_rand : Option Bytes32) :
    Except MusigNonceGenError (MusigSecNonce N × MusigPubNonce N) :=
  new_musig_nonce_pair N H session_id (some cache) (some sec_key) (some msg)
    extra_rand

/-- Nonce aggregation (`MusigAggNonce::new`): componentwise sum of the public
nonces, an identity-point sum replaced by the generator.  The foreign call
fails — and the wrapper panics via `unreachable!` — only on an empty input
list. -/
def MusigAggNonce.new (N : ℕ) (nonces : List (MusigPubNonce N)) :
    Except RustPanic (MusigAggNonce N) :=
  if nonces = [] then .error .unreachableReached
  else
    let s1 := (nonces.map (fun n => n.r1)).sum
    let s2 := (nonces.map (fun n => n.r2)).sum
    .ok ⟨if s1 = 0 then 1 else s1, if s2 = 0 then 1 else s2⟩

/-- Session derivation (`MusigSession::new`): computes the binding
coefficient, the final effective nonce `R1 + b·R2` plus the adaptor point if
present (the generator substituted for an identity result), its parity, the
Schnorr challenge, and the key-parity correction copied from the cache. -/
def MusigSession.new (N : ℕ) (H : HashModel N) (key_agg_cache : MusigKeyAggCache N)
    (agg_nonce : MusigAggNonce N) (msg : Message) (adaptor : Option (Point N)) :
    MusigSession N :=
  let b := H.nonceCoefHash agg_nonce.r1 agg_nonce.r2 key_agg_cache.aggPkSnapshot msg
  let r0 := agg_nonce.r1 + b * agg_nonce.r2 + adaptor.getD 0
  let rfin := if r0 = 0 then 1 else r0
  { b := b
    finNonceX := xonly N rfin
    finNonceParity := !(evenY N rfin)
    e := H.challengeHash (xonly N rfin) key_agg_cache.aggPkSnapshot msg
    keyParity := xor (!(evenY N key_agg_cache.q)) key_agg_cache.gacc }

/-- Partial signing (`MusigSession::partial_sign`).  The secret nonce is
invalidated (overwritten with the zero sentinel, returned as the second
component) regardless of outcome; a nonce whose scalars already read as the
zero sentinel fails with `NonceReuse`.  Otherwise the signer's scalar
contribution `k1' + b·k2' + e·a·d'` is produced, with the nonce scalars
flipped by the session's nonce parity and the effective secret key flipped by
the session's key parity. -/
def MusigSession.partial_sign (N : ℕ) (H : HashModel N) (sess : MusigSession N)
    (secnonce : MusigSecNonce N) (keypair : Scalar N)
    (key_agg_cache : MusigKeyAggCache N) :
    Except MusigSignError (MusigPartialSignature N) × MusigSecNonce N :=
  if secnonce.k1 = 0 ∧ secnonce.k2 = 0 then (.error .NonceReuse, ⟨0, 0⟩)
  else
    let k1 := if sess.finNonceParity then -secnonce.k1 else secnonce.k1
    let k2 := if sess.finNonceParity then -secnonce.k2 else secnonce.k2
    let p := xonly N keypair
    let d := if sess.keyParity then -p else p
    let a := keyAggCoef N H key_agg_cache.lhash key_agg_cache.secondPk p
    (.ok ⟨k1 + sess.b * k2 + sess.e * a * d⟩, ⟨0, 0⟩)

/-- Signature aggregation (`MusigSession::partial_sig_agg`): the final nonce
x-coordinate paired with the sum of the partial-signature scalars. -/
def MusigSession.partial_sig_agg (N : ℕ) (sess : MusigSession N)
    (partial_sigs : List (MusigPartialSignature N)) : SchnorrSignature N :=
  ⟨sess.finNonceX, (partial_sigs.map (fun ps => ps.s)).sum⟩

/-- The session's nonce parity bit (`MusigSession::nonce_parity`). -/
def MusigSession.nonce_parity (N : ℕ) (sess : MusigSession N) : Bool :=
  sess.finNonceParity

/-- Adaptor application (`adapt`): the scalar half of the pre-signature is
shifted by the secret adaptor, the sign chosen by the session's recorded
nonce parity. -/
def adapt (N : ℕ) (pre_sig : SchnorrSignature N) (sec_adaptor : Scalar N)
    (nonce_parity : Bool) : SchnorrSignature N :=
  ⟨pre_sig.r, pre_sig.s + (if nonce_parity then -sec_adaptor else sec_adaptor)⟩

/-- Adaptor extraction (`extract_adaptor`): the parity-corrected difference of
the two scalar halves. -/
def extract_adaptor (N : ℕ) (sig pre_sig : SchnorrSignature N)
    (nonce_parity : Bool) : Scalar N :=
  let d := sig.s - pre_sig.s
  if nonce_parity then -d else d

/-- The external single-signer BIP340 Schnorr verifier: recomputes the
challenge, forms `s·G − e·P`, and accepts when that point is not the
identity, has even y, and has the signature's x-coordinate. -/
def schnorrVerify (N : ℕ) (H : HashModel N) (sig : SchnorrSignature N)
    (msg : Message) (pubkey : Point N) : Bool :=
  let e := H.challengeHash sig.r pubkey msg
  let rPrime := sig.s - e * pubkey
  decide (rPrime ≠ 0) && evenY N rPrime && decide (rPrime = sig.r)

/-- Little-endian base-256 digits of a value, `len` bytes. -/
def natToBytes : ℕ → ℕ → List ℕ
  | 0, _ => []
  | len + 1, v => v % 256 :: natToBytes len (v / 256)

/-- The value of a little-endian base-256 byte list. -/
def bytesToNat : List ℕ → ℕ
  | [] => 0
  | b :: bs => b + 256 * bytesToNat bs

/-- Wire format of a public nonce (`MusigPubNonce::serialize`):
132 bytes, two 66-byte point encodings. -/
def MusigPubNonce.serialize (N : ℕ) [NeZero N] (n : MusigPubNonce N) : List ℕ :=
  natToBytes 66 n.r1.val ++ natToBytes 66 n.r2.val

/-- Parsing a public nonce (`MusigPubNonce::from_slice`): rejects a slice of
the wrong length with `ArgLenMismatch`, an out-of-range point encoding with
`MalformedArg`. -/
def MusigPubNonce.from_slice (N : ℕ) (data : List ℕ) :
    Except ParseError (MusigPubNonce N) :=
  if data.length ≠ 132 then .error (.ArgLenMismatch 132 data.length)
  else
    let v1 := bytesToNat (data.take 66)
    let v2 := bytesToNat (data.drop 66)
    if v1 < N ∧ v2 < N then .ok ⟨(v1 : ZMod N), (v2 : ZMod N)⟩
    else .error .MalformedArg

/-- Wire format of an aggregate nonce (`MusigAggNonce::serialize`):
132 bytes, two 66-byte point encodings. -/
def MusigAggNonce.serialize (N : ℕ) [NeZero N] (n : MusigAggNonce N) : List ℕ :=
  natToBytes 66 n.r1.val ++ natToBytes 66 n.r2.val

/-- Parsing an aggregate nonce (`MusigAggNonce::from_slice`). -/
def MusigAggNonce.from_slice (N : ℕ) (data : List ℕ) :
    Except ParseError (MusigAggNonce N) :=
  if data.length ≠ 132 then .error (.ArgLenMismatch 132 data.length)
  else
    let v1 := bytesToNat (data.take 66)
    let v2 := bytesToNat (data.drop 66)
    if v1 < N ∧ v2 < N then .ok ⟨(v1 : ZMod N), (v2 : ZMod N)⟩
    else .error .MalformedArg

/-- Wire format of a partial signature (`MusigPartialSignature::serialize`):
one 32-byte scalar. -/
def MusigPartialSignature.serialize (N : ℕ) [NeZero N]
    (ps : MusigPartialSignature N) : List ℕ :=
  natToBytes 32 ps.s.val

/-- Parsing a partial signature (`MusigPartialSignature::from_slice`):
rejects a slice of the wrong length with `ArgLenMismatch`, a scalar out of
the group order with `MalformedArg`. -/
def MusigPartialSignature.from_slice (N : ℕ) (data : List ℕ) :
    Except ParseError (MusigPartialSignature N) :=
  if data.length ≠ 32 then .error (.ArgLenMismatch 32 data.length)
  else
    let v := bytesToNat data
    if v < N then .ok ⟨(v : ZMod N)⟩ else .error .MalformedArg

/-! ## A concrete instantiation used by the closed witness statements -/

/-- A small concrete tagged-hash collaborator over the group of order 11,
used to evaluate the theorems on closed inputs. -/
def testHash : HashModel 11 where
  keyAggList := fun keys => keys.sum + (keys.length : ZMod 11)
  keyAggCoefHash := fun L P => L + 2 * P + 3
  nonceHash1 := fun sid sk _m c _e => ((sid 0).val : ZMod 11) + sk.getD 0 + c.getD 0 + 1
  nonceHash2 := fun sid sk _m c _e => ((sid 1).val : ZMod 11) + 3 * sk.getD 0 + 2 * c.getD 0 + 2
  nonceCoefHash := fun r1 r2 pk m => r1 + 2 * r2 + 3 * pk + ((m 0).val : ZMod 11)
  challengeHash := fun r pk m => r + 2 * pk + ((m 0).val : ZMod 11) + 1

/-- The constant session identifier with every byte equal to `v`. -/
def constSid (v : Fin 256) : Bytes32 := fun _ => v

/-- The concrete message with every byte equal to 4. -/
def testMsg : Message := fun _ => 4
/-- Equality of `Except` values is decidable when it is decidable on both
components, so closed runs of the embedded operations evaluate inside
`decide`. -/
instance exceptDecEq {ε α : Type} [DecidableEq ε] [DecidableEq α] :
    DecidableEq (Except ε α) := fun x y =>
  match x, y with
  | .error a, .error b =>
      if h : a = b then .isTrue (by rw [h])
      else .isFalse (by intro hh; cases hh; exact h rfl)
  | .ok a, .ok b =>
      if h : a = b then .isTrue (by rw [h])
      else .isFalse (by intro hh; cases hh; exact h rfl)
  | .error _, .ok _ => .isFalse (by intro hh; cases hh)
  | .ok _, .error _ => .isFalse (by intro hh; cases hh)

/-! ## Helper lemmas about the parity model, list sums and byte codecs -/

/-- Negation flips the modelled y-parity of every non-identity point when the
group order is odd. -/
theorem evenY_neg (N : ℕ) (hodd : N % 2 = 1) (P : Point N) (hP : P ≠ 0) :
    evenY N (-P) = !evenY N P := by
  haveI : NeZero N := ⟨by omega⟩
  have h1 : P.val < N := ZMod.val_lt P
  have h2 : P.val ≠ 0 := fun h0 => hP ((ZMod.val_eq_zero P).mp h0)
  have hval : (-P).val = N - P.val := by rw [ZMod.neg_val]; simp [hP]
  by_cases h : 2 * P.val < N
  · have hn : ¬ 2 * (N - P.val) < N := by omega
    simp [evenY, hval, h, hn]
  · have hy : 2 * (N - P.val) < N := by omega
    simp [evenY, hval, h, hy]

/-- The even-y lift of a non-identity point has even y. -/
theorem evenY_xonly (N : ℕ) (hodd : N % 2 = 1) (P : Point N) (hP : P ≠ 0) :
    evenY N (xonly N P) = true := by
  unfold xonly
  by_cases h : evenY N P
  · simp [h]
  · simp [h, evenY_neg N hodd P hP]

/-- The even-y lift of a non-identity point is not the identity. -/
theorem xonly_ne_zero (N : ℕ) (P : Point N) (hP : P ≠ 0) : xonly N P ≠ 0 := by
  unfold xonly
  split
  · exact hP
  · simpa using hP

/-- A sum of pointwise sums splits. -/
theorem sum_map_add (N : ℕ) {α : Type} (l : List α) (f g : α → ZMod N) :
    (l.map fun x => f x + g x).sum = (l.map f).sum + (l.map g).sum := by
  induction l with
  | nil => simp
  | cons a t ih => simp only [List.map_cons, List.sum_cons, ih]; ring

/-- A common left factor moves out of a sum. -/
theorem sum_map_mul_left (N : ℕ) {α : Type} (l : List α) (c : ZMod N)
    (f : α → ZMod N) : (l.map fun x => c * f x).sum = c * (l.map f).sum := by
  induction l with
  | nil => simp
  | cons a t ih => simp only [List.map_cons, List.sum_cons, ih]; ring

/-- Negation moves out of a sum. -/
theorem sum_map_neg (N : ℕ) {α : Type} (l : List α) (f : α → ZMod N) :
    (l.map fun x => -f x).sum = -(l.map f).sum := by
  induction l with
  | nil => simp
  | cons a t ih => simp only [List.map_cons, List.sum_cons, ih]; ring

/-- The byte encoding has the requested length. -/
theorem natToBytes_length (len v : ℕ) : (natToBytes len v).length = len := by
  induction len generalizing v with
  | zero => rfl
  | succ n ih => simp [natToBytes, ih]

/-- Decoding inverts encoding for every value that fits. -/
theorem bytesToNat_natToBytes (len v : ℕ) (h : v < 256 ^ len) :
    bytesToNat (natToBytes len v) = v := by
  induction len generalizing v with
  | zero =>
      simp only [natToBytes, bytesToNat]
      simp only [pow_zero] at h
      omega
  | succ n ih =>
      have hlt : v / 256 < 256 ^ n := by
        rw [Nat.div_lt_iff_lt_mul (by norm_num)]
        calc v < 256 ^ (n + 1) := h
        _ = 256 ^ n * 256 := by ring
      simp only [natToBytes, bytesToNat, ih (v / 256) hlt]
      omega

/-- Casting a ZMod value's representative back is the identity. -/
theorem natCast_val_self (N : ℕ) [NeZero N] (a : ZMod N) :
    ((a.val : ℕ) : ZMod N) = a :=
  ZMod.natCast_rightInverse a

/-- C2: the first `partial_sign` call invalidates (zeroes) the secret nonce
whatever its outcome, and a second call with the nonce it left behind fails
with `NonceReuse`. -/
theorem partial_sign_consumes_nonce_and_rejects_reuse (N : ℕ) (H : HashModel N)
    (sess : MusigSession N) (sn : MusigSecNonce N) (keypair : Scalar N)
    (cache : MusigKeyAggCache N) :
    (MusigSession.partial_sign N H sess sn keypair cache).2 = ⟨0, 0⟩ ∧
    (MusigSession.partial_sign N H sess
        (MusigSession.partial_sign N H sess sn keypair cache).2 keypair cache).1 =
      Except.error MusigSignError.NonceReuse := by
  have hzero : (MusigSession.partial_sign N H sess sn keypair cache).2 = ⟨0, 0⟩ := by
    unfold MusigSession.partial_sign
    split <;> rfl
  refine ⟨hzero, ?_⟩
  rw [hzero]
  unfold MusigSession.partial_sign
  simp

/-- C3: nonce generation fails, with `ZeroSession`, exactly when the session
identifier is the all-zero value — for every combination of the optional
key-aggregation cache, secret key, message and extra randomness — and
returns a secret/public nonce pair otherwise. -/
theorem nonce_gen_zero_session_iff (N : ℕ) (H : HashModel N) (sid : Bytes32)
    (cache : Option (MusigKeyAggCache N)) (sk : Option (Scalar N))
    (msg : Option Message) (extra : Option Bytes32) :
    ((new_musig_nonce_pair N H sid cache sk msg extra =
        Except.error MusigNonceGenError.ZeroSession) ↔ sid = zeroSessionId) ∧
    (sid ≠ zeroSessionId →
      ∃ pair, new_musig_nonce_pair N H sid cache sk msg extra = Except.ok pair) := by
  unfold new_musig_nonce_pair
  by_cases h : sid = zeroSessionId
  · simp [h]
  · simp [h]

/-- Witness for C3: the all-zero id is rejected and a nonzero id accepted on
concrete inputs. -/
theorem nonce_gen_zero_session_iff_witness :
    new_musig_nonce_pair 11 testHash zeroSessionId none none none none =
      Except.error MusigNonceGenError.ZeroSession ∧
    ∃ pair, new_musig_nonce_pair 11 testHash (constSid 1) none none none none =
      Except.ok pair :=
  ⟨(nonce_gen_zero_session_iff 11 testHash zeroSessionId none none none none).1.mpr rfl,
   (nonce_gen_zero_session_iff 11 testHash (constSid 1) none none none none).2
     (by decide)⟩

/-- C4: the adaptor round-trip — extracting from an adapted pre-signature
with the same parity recovers the secret adaptor scalar, zero included. -/
theorem adapt_extract_roundtrip (N : ℕ) (pre_sig : SchnorrSignature N)
    (t : Scalar N) (p : Bool) :
    extract_adaptor N (adapt N pre_sig t p) pre_sig p = t := by
  unfold adapt extract_adaptor
  cases p <;> simp
/-- C5: both tweak operations fail with `InvalidTweak` exactly when the
tweaked point is the point at infinity — equivalently, when the tweak is the
exact negation of the implied aggregate secret key (for the x-only variant,
of the even-y form's secret) — and return the tweaked public key in every
other case. -/
theorem tweak_invalid_iff_negated_key (N : ℕ) (cache : MusigKeyAggCache N)
    (t : Scalar N) :
    ((MusigKeyAggCache.pubkey_ec_tweak_add N cache t).1 =
        Except.error MusigTweakErr.InvalidTweak ↔ t = -cache.q) ∧
    (t ≠ -cache.q →
      (MusigKeyAggCache.pubkey_ec_tweak_add N cache t).1 = Except.ok (cache.q + t)) ∧
    ((MusigKeyAggCache.pubkey_xonly_tweak_add N cache t).1 =
        Except.error MusigTweakErr.InvalidTweak ↔ t = -(xonly N cache.q)) ∧
    (t ≠ -(xonly N cache.q) →
      (MusigKeyAggCache.pubkey_xonly_tweak_add N cache t).1 =
        Except.ok (xonly N (xonly N cache.q + t))) := by
  have hec : cache.q + t = 0 ↔ t = -cache.q := by
    constructor
    · intro h; linear_combination h
    · intro h; rw [h]; ring
  have hx : xonly N cache.q + t = 0 ↔ t = -(xonly N cache.q) := by
    constructor
    · intro h; linear_combination h
    · intro h; rw [h]; ring
  refine ⟨?_, ?_, ?_, ?_⟩
  · unfold MusigKeyAggCache.pubkey_ec_tweak_add
    by_cases h : cache.q + t = 0 <;> (simp [h, hec.mp, hec.mpr]; try tauto)
  · intro hne
    unfold MusigKeyAggCache.pubkey_ec_tweak_add
    rw [if_neg (fun h => hne (hec.mp h))]
  · unfold MusigKeyAggCache.pubkey_xonly_tweak_add xonly
    by_cases h : (if evenY N cache.q then cache.q else -cache.q) + t = 0 <;>
      simp only [h, if_true, if_false] <;> unfold xonly at hx <;> simp [h] <;> tauto
  · intro hne
    unfold MusigKeyAggCache.pubkey_xonly_tweak_add
    unfold xonly at hx hne ⊢
    rw [if_neg (fun h => hne (hx.mp h))]
/-- Witness for C5: over the group of order 11, tweaking the aggregate point
3 by 8 (its exact negation) fails, while tweaking it by 1 returns the
tweaked key. -/
theorem tweak_invalid_iff_negated_key_witness :
    (MusigKeyAggCache.pubkey_ec_tweak_add 11 ⟨3, 0, 0, false, 0, 3⟩ 8).1 =
      Except.error MusigTweakErr.InvalidTweak ∧
    (MusigKeyAggCache.pubkey_ec_tweak_add 11 ⟨3, 0, 0, false, 0, 3⟩ 1).1 =
      Except.ok (3 + 1) ∧
    (MusigKeyAggCache.pubkey_xonly_tweak_add 11 ⟨3, 0, 0, false, 0, 3⟩ 1).1 =
      Except.ok (xonly 11 (xonly 11 3 + 1)) :=
  ⟨(tweak_invalid_iff_negated_key 11 ⟨3, 0, 0, false, 0, 3⟩ 8).1.mpr (by decide),
   (tweak_invalid_iff_negated_key 11 ⟨3, 0, 0, false, 0, 3⟩ 1).2.1 (by decide),
   (tweak_invalid_iff_negated_key 11 ⟨3, 0, 0, false, 0, 3⟩ 1).2.2.2 (by decide)⟩

/-- C8: an operation that reports an error leaves no observable state
partially mutated — a failing tweak returns the cache it was called on
unchanged — with the one sanctioned exception that `partial_sign` always
invalidates the secret nonce regardless of outcome. -/
theorem tweak_error_leaves_cache_unchanged (N : ℕ) (H : HashModel N)
    (cache : MusigKeyAggCache N) (t : Scalar N) (sess : MusigSession N)
    (sn : MusigSecNonce N) (keypair : Scalar N) :
    ((MusigKeyAggCache.pubkey_ec_tweak_add N cache t).1 =
        Except.error MusigTweakErr.InvalidTweak →
      (MusigKeyAggCache.pubkey_ec_tweak_add N cache t).2 = cache) ∧
    ((MusigKeyAggCache.pubkey_xonly_tweak_add N cache t).1 =
        Except.error MusigTweakErr.InvalidTweak →
      (MusigKeyAggCache.pubkey_xonly_tweak_add N cache t).2 = cache) ∧
    (MusigSession.partial_sign N H sess sn keypair cache).2 = ⟨0, 0⟩ := by
  refine ⟨?_, ?_, ?_⟩
  · by_cases h : cache.q + t = 0 <;>
      simp [MusigKeyAggCache.pubkey_ec_tweak_add, h]
  · by_cases h : (if evenY N cache.q then cache.q else -cache.q) + t = 0 <;>
      simp [MusigKeyAggCache.pubkey_xonly_tweak_add, h]
  · unfold MusigSession.partial_sign
    split <;> rfl

/-- Witness for C8: on concrete inputs the failing tweaks leave the concrete
cache intact. -/
theorem tweak_error_leaves_cache_unchanged_witness :
    (MusigKeyAggCache.pubkey_ec_tweak_add 11 ⟨3, 0, 0, false, 0, 3⟩ 8).2 =
      ⟨3, 0, 0, false, 0, 3⟩ ∧
    (MusigKeyAggCache.pubkey_xonly_tweak_add 11 ⟨3, 0, 0, false, 0, 3⟩ 8).2 =
      ⟨3, 0, 0, false, 0, 3⟩ :=
  ⟨(tweak_error_leaves_cache_unchanged 11 testHash ⟨3, 0, 0, false, 0, 3⟩ 8
      ⟨0, 0, false, 0, false⟩ ⟨1, 2⟩ 1).1 (by decide),
   (tweak_error_leaves_cache_unchanged 11 testHash ⟨3, 0, 0, false, 0, 3⟩ 8
      ⟨0, 0, false, 0, false⟩ ⟨1, 2⟩ 1).2.1 (by decide)⟩

/-- C9: the value `agg_pk` returns is the aggregate x-only key computed at
construction, and neither tweak operation — successful or not — updates it,
even though a successful plain tweak does move the internal aggregate
point. -/
theorem agg_pk_frozen_at_construction (N : ℕ) (H : HashModel N)
    (keys : List (Point N)) (cache0 cache : MusigKeyAggCache N) (t : Scalar N) :
    (MusigKeyAggCache.new N H keys = Except.ok cache0 →
      MusigKeyAggCache.agg_pk N cache0 = xonly N (aggregatePoint N H keys)) ∧
    MusigKeyAggCache.agg_pk N (MusigKeyAggCache.pubkey_ec_tweak_add N cache t).2 =
      MusigKeyAggCache.agg_pk N cache ∧
    MusigKeyAggCache.agg_pk N (MusigKeyAggCache.pubkey_xonly_tweak_add N cache t).2 =
      MusigKeyAggCache.agg_pk N cache ∧
    (t ≠ -cache.q →
      ((MusigKeyAggCache.pubkey_ec_tweak_add N cache t).2).q = cache.q + t) := by
  refine ⟨?_, ?_, ?_, ?_⟩
  · by_cases h0 : keys = []
    · simp [MusigKeyAggCache.new, h0]
    · by_cases hq : aggregatePoint N H keys = 0
      · simp [MusigKeyAggCache.new, h0, hq]
      · simp only [MusigKeyAggCache.new, h0, hq, if_false, if_neg]
        intro h
        cases h
        rfl
  · by_cases h : cache.q + t = 0 <;>
      simp [MusigKeyAggCache.pubkey_ec_tweak_add, MusigKeyAggCache.agg_pk, h]
  · by_cases h : (if evenY N cache.q then cache.q else -cache.q) + t = 0 <;>
      simp [MusigKeyAggCache.pubkey_xonly_tweak_add, MusigKeyAggCache.agg_pk, h]
  · intro hne
    have h : ¬ cache.q + t = 0 := fun h => hne (by linear_combination h)
    simp [MusigKeyAggCache.pubkey_ec_tweak_add, h]

/-- Witness for C9: the concrete cache over the order-11 group built from
keys `[1, 2]` snapshots aggregate key 1, and a successful plain tweak by 1
moves the aggregate point while `agg_pk` is unchanged. -/
theorem agg_pk_frozen_at_construction_witness :
    MusigKeyAggCache.agg_pk 11 ⟨1, 5, 2, false, 0, 1⟩ =
      xonly 11 (aggregatePoint 11 testHash [1, 2]) ∧
    ((MusigKeyAggCache.pubkey_ec_tweak_add 11 ⟨1, 5, 2, false, 0, 1⟩ 1).2).q = 1 + 1 ∧
    MusigKeyAggCache.agg_pk 11 (MusigKeyAggCache.pubkey_ec_tweak_add 11
      ⟨1, 5, 2, false, 0, 1⟩ 1).2 = MusigKeyAggCache.agg_pk 11 ⟨1, 5, 2, false, 0, 1⟩ :=
  ⟨(agg_pk_frozen_at_construction 11 testHash [1, 2] ⟨1, 5, 2, false, 0, 1⟩
      ⟨1, 5, 2, false, 0, 1⟩ 1).1 (by decide),
   (agg_pk_frozen_at_construction 11 testHash [1, 2] ⟨1, 5, 2, false, 0, 1⟩
      ⟨1, 5, 2, false, 0, 1⟩ 1).2.2.2 (by decide),
   (agg_pk_frozen_at_construction 11 testHash [1, 2] ⟨1, 5, 2, false, 0, 1⟩
      ⟨1, 5, 2, false, 0, 1⟩ 1).2.1⟩

/-- C10: on an empty input list neither constructor returns an error value:
the branch the code marks `unreachable!` is taken and the call panics, while
every non-empty nonce list aggregates successfully. -/
theorem empty_input_panics (N : ℕ) (H : HashModel N) :
    MusigKeyAggCache.new N H [] = Except.error RustPanic.unreachableReached ∧
    MusigAggNonce.new N ([] : List (MusigPubNonce N)) =
      Except.error RustPanic.unreachableReached ∧
    (∀ nonces : List (MusigPubNonce N), nonces ≠ [] →
      ∃ a, MusigAggNonce.new N nonces = Except.ok a) := by
  refine ⟨rfl, rfl, ?_⟩
  intro nonces h
  unfold MusigAggNonce.new
  rw [if_neg h]
  exact ⟨_, rfl⟩

/-- Witness for C10: over the order-11 group the empty calls panic and a
one-element nonce list aggregates. -/
theorem empty_input_panics_witness :
    MusigKeyAggCache.new 11 testHash [] = Except.error RustPanic.unreachableReached ∧
    ∃ a, MusigAggNonce.new 11 [⟨1, 2⟩] = Except.ok a :=
  ⟨(empty_input_panics 11 testHash).1,
   (empty_input_panics 11 testHash).2.2 [⟨1, 2⟩] (by decide)⟩
/-- Taking exactly the first summand's length from an append returns it. -/
theorem take_len_append {α : Type} (xs ys : List α) (n : ℕ) (h : xs.length = n) :
    (xs ++ ys).take n = xs := by
  subst h; simp

/-- Dropping exactly the first summand's length from an append returns the
second summand. -/
theorem drop_len_append {α : Type} (xs ys : List α) (n : ℕ) (h : xs.length = n) :
    (xs ++ ys).drop n = ys := by
  subst h; simp

/-- C6: every value of the three wire types parses back from its own
serialization: `from_slice (serialize v) = ok v` for public nonces,
aggregate nonces and partial signatures, whenever the group order fits the
wire width. -/
theorem serialize_roundtrip (N : ℕ) [NeZero N] (h66 : N ≤ 256 ^ 66)
    (h32 : N ≤ 256 ^ 32) (pn : MusigPubNonce N) (an : MusigAggNonce N)
    (ps : MusigPartialSignature N) :
    MusigPubNonce.from_slice N (MusigPubNonce.serialize N pn) = Except.ok pn ∧
    MusigAggNonce.from_slice N (MusigAggNonce.serialize N an) = Except.ok an ∧
    MusigPartialSignature.from_slice N (MusigPartialSignature.serialize N ps) =
      Except.ok ps := by
  have hval : ∀ a : ZMod N, a.val < 256 ^ 66 := fun a => lt_of_lt_of_le (ZMod.val_lt a) h66
  have hval32 : ∀ a : ZMod N, a.val < 256 ^ 32 := fun a => lt_of_lt_of_le (ZMod.val_lt a) h32
  refine ⟨?_, ?_, ?_⟩
  · unfold MusigPubNonce.from_slice MusigPubNonce.serialize
    rw [take_len_append _ _ 66 (natToBytes_length 66 pn.r1.val),
      drop_len_append _ _ 66 (natToBytes_length 66 pn.r1.val),
      bytesToNat_natToBytes 66 pn.r1.val (hval _),
      bytesToNat_natToBytes 66 pn.r2.val (hval _)]
    have hlen : (natToBytes 66 pn.r1.val ++ natToBytes 66 pn.r2.val).length = 132 := by
      simp [natToBytes_length]
    rw [if_neg (by rw [hlen]; exact fun hc => hc rfl),
      if_pos ⟨ZMod.val_lt _, ZMod.val_lt _⟩]
    simp [natCast_val_self]
  · unfold MusigAggNonce.from_slice MusigAggNonce.serialize
    rw [take_len_append _ _ 66 (natToBytes_length 66 an.r1.val),
      drop_len_append _ _ 66 (natToBytes_length 66 an.r1.val),
      bytesToNat_natToBytes 66 an.r1.val (hval _),
      bytesToNat_natToBytes 66 an.r2.val (hval _)]
    have hlen : (natToBytes 66 an.r1.val ++ natToBytes 66 an.r2.val).length = 132 := by
      simp [natToBytes_length]
    rw [if_neg (by rw [hlen]; exact fun hc => hc rfl),
      if_pos ⟨ZMod.val_lt _, ZMod.val_lt _⟩]
    simp [natCast_val_self]
  · unfold MusigPartialSignature.from_slice MusigPartialSignature.serialize
    rw [bytesToNat_natToBytes 32 ps.s.val (hval32 _)]
    rw [if_neg (by rw [natToBytes_length]; exact fun hc => hc rfl),
      if_pos (ZMod.val_lt _)]
    simp [natCast_val_self]

/-- Witness for C6: concrete order-11 wire values round-trip. -/
theorem serialize_roundtrip_witness :
    MusigPubNonce.from_slice 11 (MusigPubNonce.serialize 11 ⟨3, 4⟩) =
      Except.ok ⟨3, 4⟩ ∧
    MusigAggNonce.from_slice 11 (MusigAggNonce.serialize 11 ⟨5, 6⟩) =
      Except.ok ⟨5, 6⟩ ∧
    MusigPartialSignature.from_slice 11 (MusigPartialSignature.serialize 11 ⟨7⟩) =
      Except.ok ⟨7⟩ :=
  serialize_roundtrip 11 (by norm_num) (by norm_num) ⟨3, 4⟩ ⟨5, 6⟩ ⟨7⟩
/-- Counterexample to C7 as stated: over the order-11 group with the concrete
tagged-hash collaborator, the key lists `[1, 5]` and `[5, 1]` are reorderings
of each other, differ element-by-element, and still aggregate to the same
x-only public key (4): re-ordering does not always change the aggregate
key. -/
theorem keyagg_reorder_collision :
    ([1, 5] : List (Point 11)) ≠ [5, 1] ∧
    ([1, 5] : List (Point 11)).Perm [5, 1] ∧
    MusigKeyAggCache.new 11 testHash [1, 5] =
      Except.ok ⟨7, 8, 5, false, 0, 4⟩ ∧
    MusigKeyAggCache.new 11 testHash [5, 1] =
      Except.ok ⟨7, 8, 1, false, 0, 4⟩ ∧
    MusigKeyAggCache.agg_pk 11 ⟨7, 8, 5, false, 0, 4⟩ =
      MusigKeyAggCache.agg_pk 11 ⟨7, 8, 1, false, 0, 4⟩ := by
  exact ⟨by decide, List.Perm.swap 5 1 [], by decide, by decide, rfl⟩

/-- C7 as amended: key aggregation is deterministic — identical ordered lists
always produce identical caches and aggregate keys — and the aggregate key
does depend on the order of the list (a concrete reordering changes it),
but a reordering that differs element-by-element is not guaranteed to
change it. -/
theorem keyagg_deterministic_and_order_dependent (N : ℕ) (H : HashModel N)
    (keys : List (Point N)) :
    MusigKeyAggCache.new N H keys = MusigKeyAggCache.new N H keys ∧
    (∃ (c c' : MusigKeyAggCache 11) (l l' : List (Point 11)),
      l.Perm l' ∧ l ≠ l' ∧
      MusigKeyAggCache.new 11 testHash l = Except.ok c ∧
      MusigKeyAggCache.new 11 testHash l' = Except.ok c' ∧
      MusigKeyAggCache.agg_pk 11 c ≠ MusigKeyAggCache.agg_pk 11 c') := by
  refine ⟨rfl, ⟨⟨1, 5, 2, false, 0, 1⟩, ⟨3, 5, 1, false, 0, 3⟩, [1, 2], [2, 1],
    List.Perm.swap 2 1 [], by decide, by decide, by decide, by decide⟩⟩
/-- Inversion of a successful key aggregation: the list was non-empty, the
aggregate point is not the identity, and the cache holds exactly the
construction data. -/
theorem keyAggCache_new_ok (N : ℕ) (H : HashModel N) (pubkeys : List (Point N))
    (cache : MusigKeyAggCache N)
    (h : MusigKeyAggCache.new N H pubkeys = Except.ok cache) :
    pubkeys ≠ [] ∧ aggregatePoint N H pubkeys ≠ 0 ∧
    cache = ⟨aggregatePoint N H pubkeys, H.keyAggList pubkeys,
      secondKey N pubkeys, false, 0, xonly N (aggregatePoint N H pubkeys)⟩ := by
  unfold MusigKeyAggCache.new at h
  by_cases h0 : pubkeys = []
  · simp [h0] at h
  · by_cases hq : aggregatePoint N H pubkeys = 0
    · simp [h0, hq] at h
    · simp only [if_neg h0, if_neg hq, Except.ok.injEq] at h
      exact ⟨h0, hq, h.symm⟩

/-- Inversion of a successful nonce generation: the returned secret and
public nonces carry the same two derived scalars. -/
theorem nonce_gen_ok (N : ℕ) (H : HashModel N) (cache : MusigKeyAggCache N)
    (sid : Bytes32) (sk : Scalar N) (msg : Message) (extra : Option Bytes32)
    (np : MusigSecNonce N × MusigPubNonce N)
    (h : MusigKeyAggCache.nonce_gen N H cache sid sk msg extra = Except.ok np) :
    np.1.k1 = np.2.r1 ∧ np.1.k2 = np.2.r2 := by
  unfold MusigKeyAggCache.nonce_gen new_musig_nonce_pair at h
  by_cases h0 : sid = zeroSessionId
  · simp [h0] at h
  · simp only [if_neg h0, Except.ok.injEq] at h
    rw [← h]
    exact ⟨rfl, rfl⟩

/-- Inversion of a successful nonce aggregation when neither componentwise
sum is the identity: the aggregate nonce holds exactly the two sums. -/
theorem aggNonce_new_ok (N : ℕ) (nonces : List (MusigPubNonce N))
    (agg : MusigAggNonce N) (h : MusigAggNonce.new N nonces = Except.ok agg)
    (h1 : (nonces.map (fun n => n.r1)).sum ≠ 0)
    (h2 : (nonces.map (fun n => n.r2)).sum ≠ 0) :
    agg.r1 = (nonces.map (fun n => n.r1)).sum ∧
    agg.r2 = (nonces.map (fun n => n.r2)).sum := by
  unfold MusigAggNonce.new at h
  by_cases h0 : nonces = []
  · simp [h0] at h
  · simp only [if_neg h0, if_neg h1, if_neg h2, Except.ok.injEq] at h
    rw [← h]
    exact ⟨rfl, rfl⟩

/-- Inversion of a successful partial signature: its scalar is the
parity-corrected combination of the nonce scalars and the effective secret
key. -/
theorem partial_sign_ok (N : ℕ) (H : HashModel N) (sess : MusigSession N)
    (sn : MusigSecNonce N) (keypair : Scalar N) (cache : MusigKeyAggCache N)
    (ps : MusigPartialSignature N)
    (h : (MusigSession.partial_sign N H sess sn keypair cache).1 = Except.ok ps) :
    ps.s = (if sess.finNonceParity then -sn.k1 else sn.k1) +
      sess.b * (if sess.finNonceParity then -sn.k2 else sn.k2) +
      sess.e * keyAggCoef N H cache.lhash cache.secondPk (xonly N keypair) *
        (if sess.keyParity then -(xonly N keypair) else xonly N keypair) := by
  unfold MusigSession.partial_sign at h
  by_cases h0 : sn.k1 = 0 ∧ sn.k2 = 0
  · simp [h0] at h
  · simp only [if_neg h0, Except.ok.injEq] at h
    rw [← h]

/-- A `Forall₂` of pointwise value equations transports a mapped sum. -/
theorem sum_of_forall2 {α β : Type} (N : ℕ) (f : α → ZMod N) (g : β → ZMod N)
    (l : List α) (l' : List β)
    (h : List.Forall₂ (fun a b => g b = f a) l l') :
    (l'.map g).sum = (l.map f).sum := by
  induction h with
  | nil => rfl
  | cons hab htail ih => simp [hab, ih]

/-- A `Forall₂` gives, for every member of the right list, a related member
of the left list. -/
theorem forall2_right_mem {α β : Type} {R : α → β → Prop} {l : List α}
    {l' : List β} (h : List.Forall₂ R l l') : ∀ b ∈ l', ∃ a, R a b := by
  induction h with
  | nil => intro b hb; cases hb
  | cons hab htail ih =>
      intro b hb
      rcases List.mem_cons.mp hb with rfl | hb
      · exact ⟨_, hab⟩
      · exact ih b hb

/-- Mapping a function of the second component over a zip is mapping it over
the second list when that list is not longer. -/
theorem zip_map_snd_fun {α β γ : Type} (l₁ : List α) (l₂ : List β) (f : β → γ)
    (h : l₂.length ≤ l₁.length) :
    (l₁.zip l₂).map (fun x => f x.2) = l₂.map f := by
  rw [show (fun x : α × β => f x.2) = f ∘ Prod.snd from rfl, ← List.map_map,
    List.map_snd_zip l₁ l₂ h]

/-- Mapping a function of the first component over a zip is mapping it over
the first list when that list is not longer. -/
theorem zip_map_fst_fun {α β γ : Type} (l₁ : List α) (l₂ : List β) (f : α → γ)
    (h : l₁.length ≤ l₂.length) :
    (l₁.zip l₂).map (fun x => f x.1) = l₁.map f := by
  rw [show (fun x : α × β => f x.1) = f ∘ Prod.fst from rfl, ← List.map_map,
    List.map_fst_zip l₁ l₂ h]


/-- A sum of conditionally negated terms is the conditionally negated sum. -/
theorem sum_map_if_neg {α : Type} (N : ℕ) (c : Bool) (l : List α) (f : α → ZMod N) :
    (l.map (fun x => if c then -f x else f x)).sum
      = if c then -(l.map f).sum else (l.map f).sum := by
  cases c
  · simp
  · simp [sum_map_neg]

/-- C1: for every number of signers who each correctly follow the protocol —
keys aggregated with `MusigKeyAggCache.new`, nonces generated with
`nonce_gen`, aggregated with `MusigAggNonce.new`, a `MusigSession` built with
no adaptor point, partial signatures produced with `partial_sign` —
`partial_sig_agg` over all the partial signatures yields a signature that
single-signer Schnorr verification accepts against the aggregate public key
and the message.  The hypotheses `h1`, `h2` and `hfin` exclude the protocol's
documented negligible-probability branches in which an identity-point nonce
sum is substituted by the generator. -/
theorem musig_honest_signing_verifies
    (N : ℕ) (hodd : N % 2 = 1) (H : HashModel N)
    (sks : List (Scalar N)) (sids : List Bytes32) (msg : Message)
    (hlen : sids.length = sks.length)
    (cache : MusigKeyAggCache N)
    (hcache : MusigKeyAggCache.new N H (sks.map (xonly N)) = Except.ok cache)
    (nps : List (MusigSecNonce N × MusigPubNonce N))
    (hnps : List.Forall₂ (fun (p : Scalar N × Bytes32) np =>
        MusigKeyAggCache.nonce_gen N H cache p.2 p.1 msg none = Except.ok np)
      (sks.zip sids) nps)
    (aggnonce : MusigAggNonce N)
    (hagg : MusigAggNonce.new N (nps.map (fun np => np.2)) = Except.ok aggnonce)
    (h1 : (nps.map (fun np => np.2.r1)).sum ≠ 0)
    (h2 : (nps.map (fun np => np.2.r2)).sum ≠ 0)
    (sess : MusigSession N)
    (hsess : MusigSession.new N H cache aggnonce msg none = sess)
    (hfin : aggnonce.r1 +
        H.nonceCoefHash aggnonce.r1 aggnonce.r2 (MusigKeyAggCache.agg_pk N cache)
            msg * aggnonce.r2 ≠ 0)
    (psigs : List (MusigPartialSignature N))
    (hsigs : List.Forall₂
        (fun (x : Scalar N × (MusigSecNonce N × MusigPubNonce N)) ps =>
          (MusigSession.partial_sign N H sess x.2.1 x.1 cache).1 = Except.ok ps)
      (sks.zip nps) psigs) :
    schnorrVerify N H (MusigSession.partial_sig_agg N sess psigs) msg
      (MusigKeyAggCache.agg_pk N cache) = true := by
  obtain ⟨hne, hQ0, hc⟩ := keyAggCache_new_ok N H (sks.map (xonly N)) cache hcache
  subst hc
  subst hsess
  set keys := sks.map (xonly N) with hkeys
  set Q := aggregatePoint N H keys with hQdef
  set L := H.keyAggList keys with hLdef
  set sk2 := secondKey N keys with hsk2def
  set q := xonly N Q with hqdef
  have hpk : MusigKeyAggCache.agg_pk N ⟨Q, L, sk2, false, 0, q⟩ = q := rfl
  rw [hpk] at hfin ⊢
  set b := H.nonceCoefHash aggnonce.r1 aggnonce.r2 q msg with hbdef
  have hfin' : aggnonce.r1 + b * aggnonce.r2 ≠ 0 := hfin
  have hsessval : MusigSession.new N H ⟨Q, L, sk2, false, 0, q⟩ aggnonce msg none =
      ⟨b, xonly N (aggnonce.r1 + b * aggnonce.r2),
        !(evenY N (aggnonce.r1 + b * aggnonce.r2)),
        H.challengeHash (xonly N (aggnonce.r1 + b * aggnonce.r2)) q msg,
        !(evenY N Q)⟩ := by
    simp only [MusigSession.new, Option.getD_none, add_zero, Bool.xor_false,
      if_neg hfin']
  rw [hsessval] at hsigs ⊢
  set ee := H.challengeHash (xonly N (aggnonce.r1 + b * aggnonce.r2)) q msg with heedef
  have hlen1 : nps.length = sks.length := by
    have h := List.Forall₂.length_eq hnps
    rw [List.length_zip, hlen, min_self] at h
    exact h.symm
  have hlink : ∀ np ∈ nps, np.1.k1 = np.2.r1 ∧ np.1.k2 = np.2.r2 := by
    intro np hmem
    obtain ⟨p, hok⟩ := forall2_right_mem hnps np hmem
    exact nonce_gen_ok N H _ p.2 p.1 msg none np hok
  have hmm1 : ((nps.map (fun np => np.2)).map (fun n => n.r1)).sum
      = (nps.map (fun np => np.2.r1)).sum := by
    rw [List.map_map]
    rfl
  have hmm2 : ((nps.map (fun np => np.2)).map (fun n => n.r2)).sum
      = (nps.map (fun np => np.2.r2)).sum := by
    rw [List.map_map]
    rfl
  obtain ⟨ha1, ha2⟩ := aggNonce_new_ok N (nps.map (fun np => np.2)) aggnonce hagg
    (by rw [hmm1]; exact h1) (by rw [hmm2]; exact h2)
  rw [hmm1] at ha1
  rw [hmm2] at ha2
  have hsum : (psigs.map (fun ps => ps.s)).sum =
      ((sks.zip nps).map (fun x =>
        (if !(evenY N (aggnonce.r1 + b * aggnonce.r2)) then -x.2.1.k1 else x.2.1.k1) +
        b * (if !(evenY N (aggnonce.r1 + b * aggnonce.r2)) then -x.2.1.k2 else x.2.1.k2) +
        ee * keyAggCoef N H L sk2 (xonly N x.1) *
          (if !(evenY N Q) then -(xonly N x.1) else xonly N x.1))).sum := by
    refine sum_of_forall2 N _ _ _ _ (hsigs.imp ?_)
    intro x ps hok
    have h := partial_sign_ok N H _ x.2.1 x.1 _ ps hok
    simpa using h
  have hQagg : (sks.map (fun sk =>
      keyAggCoef N H L sk2 (xonly N sk) * xonly N sk)).sum = Q := by
    rw [hQdef]
    unfold aggregatePoint
    rw [← hLdef, ← hsk2def, hkeys, List.map_map]
    rfl
  have hk1 : (nps.map (fun np => np.1.k1)).sum = aggnonce.r1 := by
    rw [List.map_congr_left (fun np hm => (hlink np hm).1)]
    exact ha1.symm
  have hk2 : (nps.map (fun np => np.1.k2)).sum = aggnonce.r2 := by
    rw [List.map_congr_left (fun np hm => (hlink np hm).2)]
    exact ha2.symm
  have hQagg : (sks.map (fun sk =>
      keyAggCoef N H L sk2 (xonly N sk) * xonly N sk)).sum = Q := by
    rw [hQdef]
    unfold aggregatePoint
    rw [← hLdef, ← hsk2def, hkeys, List.map_map]
    rfl
  have hS : (psigs.map (fun ps => ps.s)).sum
      = xonly N (aggnonce.r1 + b * aggnonce.r2) + ee * q := by
    rw [hsum, sum_map_add, sum_map_add, sum_map_mul_left]
    have hp1 : ((sks.zip nps).map (fun x =>
        if !(evenY N (aggnonce.r1 + b * aggnonce.r2)) then -x.2.1.k1 else x.2.1.k1)).sum
        = ((nps.map (fun np =>
            if !(evenY N (aggnonce.r1 + b * aggnonce.r2)) then -np.1.k1 else np.1.k1))).sum := by
      rw [← zip_map_snd_fun sks nps (fun np =>
        if !(evenY N (aggnonce.r1 + b * aggnonce.r2)) then -np.1.k1 else np.1.k1)
        (le_of_eq hlen1)]
    have hp2 : ((sks.zip nps).map (fun x =>
        if !(evenY N (aggnonce.r1 + b * aggnonce.r2)) then -x.2.1.k2 else x.2.1.k2)).sum
        = ((nps.map (fun np =>
            if !(evenY N (aggnonce.r1 + b * aggnonce.r2)) then -np.1.k2 else np.1.k2))).sum := by
      rw [← zip_map_snd_fun sks nps (fun np =>
        if !(evenY N (aggnonce.r1 + b * aggnonce.r2)) then -np.1.k2 else np.1.k2)
        (le_of_eq hlen1)]
    have hp3 : ((sks.zip nps).map (fun x =>
        ee * keyAggCoef N H L sk2 (xonly N x.1) *
          (if !(evenY N Q) then -(xonly N x.1) else xonly N x.1))).sum
        = (sks.map (fun sk =>
            ee * keyAggCoef N H L sk2 (xonly N sk) *
              (if !(evenY N Q) then -(xonly N sk) else xonly N sk))).sum := by
      rw [← zip_map_fst_fun sks nps (fun sk =>
        ee * keyAggCoef N H L sk2 (xonly N sk) *
          (if !(evenY N Q) then -(xonly N sk) else xonly N sk)) (le_of_eq hlen1.symm)]
    rw [hp1, hp2, hp3]
    have hq1 : ((nps.map (fun np =>
        if !(evenY N (aggnonce.r1 + b * aggnonce.r2)) then -np.1.k1 else np.1.k1))).sum
        = if !(evenY N (aggnonce.r1 + b * aggnonce.r2))
            then -(nps.map (fun np => np.1.k1)).sum else (nps.map (fun np => np.1.k1)).sum :=
      sum_map_if_neg N _ nps (fun np => np.1.k1)
    have hq2 : ((nps.map (fun np =>
        if !(evenY N (aggnonce.r1 + b * aggnonce.r2)) then -np.1.k2 else np.1.k2))).sum
        = if !(evenY N (aggnonce.r1 + b * aggnonce.r2))
            then -(nps.map (fun np => np.1.k2)).sum else (nps.map (fun np => np.1.k2)).sum :=
      sum_map_if_neg N _ nps (fun np => np.1.k2)
    have hfun3 : (fun sk => ee * keyAggCoef N H L sk2 (xonly N sk) *
        (if !(evenY N Q) then -(xonly N sk) else xonly N sk))
        = fun sk => if !(evenY N Q)
            then -(ee * (keyAggCoef N H L sk2 (xonly N sk) * xonly N sk))
            else ee * (keyAggCoef N H L sk2 (xonly N sk) * xonly N sk) := by
      funext sk
      cases !(evenY N Q) <;> simp <;> ring
    have hq3 : (sks.map (fun sk =>
        ee * keyAggCoef N H L sk2 (xonly N sk) *
          (if !(evenY N Q) then -(xonly N sk) else xonly N sk))).sum
        = if !(evenY N Q)
            then -(sks.map (fun sk =>
              ee * (keyAggCoef N H L sk2 (xonly N sk) * xonly N sk))).sum
            else (sks.map (fun sk =>
              ee * (keyAggCoef N H L sk2 (xonly N sk) * xonly N sk))).sum := by
      rw [hfun3]
      exact sum_map_if_neg N _ sks (fun sk =>
        ee * (keyAggCoef N H L sk2 (xonly N sk) * xonly N sk))
    have hmul : (sks.map (fun sk =>
        ee * (keyAggCoef N H L sk2 (xonly N sk) * xonly N sk))).sum
        = ee * Q := by
      rw [sum_map_mul_left, hQagg]
    rw [hq1, hq2, hq3, hmul, hk1, hk2, hqdef]
    unfold xonly
    cases hpar : evenY N (aggnonce.r1 + b * aggnonce.r2) <;>
      cases hg : evenY N Q <;> simp [hpar, hg] <;> ring
  have hsig : MusigSession.partial_sig_agg N
      ⟨b, xonly N (aggnonce.r1 + b * aggnonce.r2),
        !(evenY N (aggnonce.r1 + b * aggnonce.r2)), ee, !(evenY N Q)⟩ psigs
      = ⟨xonly N (aggnonce.r1 + b * aggnonce.r2),
          xonly N (aggnonce.r1 + b * aggnonce.r2) + ee * q⟩ := by
    unfold MusigSession.partial_sig_agg
    rw [hS]
  rw [hsig]
  unfold schnorrVerify
  dsimp only
  have hrp : xonly N (aggnonce.r1 + b * aggnonce.r2) + ee * q -
      H.challengeHash (xonly N (aggnonce.r1 + b * aggnonce.r2)) q msg * q
      = xonly N (aggnonce.r1 + b * aggnonce.r2) := by
    rw [← heedef]
    ring
  rw [hrp]
  simp [xonly_ne_zero N _ hfin', evenY_xonly N hodd _ hfin']

/-- Witness for C1: a concrete two-signer run over the order-11 group whose
aggregated signature passes Schnorr verification. -/
theorem musig_honest_signing_verifies_witness :
    schnorrVerify 11 testHash
      (MusigSession.partial_sig_agg 11 ⟨0, 2, false, 9, false⟩ [⟨6⟩, ⟨5⟩]) testMsg
      (MusigKeyAggCache.agg_pk 11 ⟨1, 5, 2, false, 0, 1⟩) = true :=
  musig_honest_signing_verifies 11 (by decide) testHash
    [1, 2] [constSid 1, constSid 5] testMsg (by decide)
    ⟨1, 5, 2, false, 0, 1⟩ (by decide)
    [(⟨4, 8⟩, ⟨4, 8⟩), (⟨9, 4⟩, ⟨9, 4⟩)]
    (List.Forall₂.cons (by decide) (List.Forall₂.cons (by decide) List.Forall₂.nil))
    ⟨2, 1⟩ (by decide) (by decide) (by decide)
    ⟨0, 2, false, 9, false⟩ (by decide) (by decide)
    [⟨6⟩, ⟨5⟩]
    (List.Forall₂.cons (by decide) (List.Forall₂.cons (by decide) List.Forall₂.nil))
